import Mathlib

/-!
Verification of the t-of-n threshold-signature library.

Shallow embedding of `BLS_Threshold_Signature.py` and
`ECDSA_Threshold_Signature.py`.  Python integers reduced modulo the curve
order `prime` are modelled as `ZMod p`; the Python `ValueError` raise sites
are modelled with `Except SigError`; the external curve/pairing libraries
(`py_ecc`, `ecdsa`, `pycryptodome`) are modelled where their behaviour is
pinned (modular inverse, cyclic-group arithmetic) and abstracted as function
parameters where not (pairings, secp256k1 point coordinates, SHA-256).
-/

deriving instance DecidableEq for Except

namespace ThresholdSig

/-- Error taxonomy of spec section 7.  The Python code raises `ValueError`
(or lets a library `ValueError`/`TypeError` escape) at each of these sites;
the spec names the variants, and each model definition below notes which
variant its raise site corresponds to. -/
inductive SigError where
  | invalidConfig
  | unknownParty
  | insufficientSigners
  | inconsistentNonce
  | invalidInput
  | invalidNonce
  deriving DecidableEq

/-- Model of the `SecretShare` dataclass (defined identically in both source
files): a party identifier `x` and a share value `y`, both integers modulo
the curve order. -/
structure SecretShare (p : ℕ) where
  x : ZMod p
  y : ZMod p
  deriving DecidableEq

/-- Model of `ShamirSecretSharing.evaluate_polynomial` (identical in both
source files): starting from `result = 0`, iterate over the enumerated
coefficient list performing
`result = (result + coeff * pow(x, i, self.prime)) % self.prime`. -/
def evaluate_polynomial {p : ℕ} (coefficients : List (ZMod p)) (x : ZMod p) : ZMod p :=
  (List.range coefficients.length).foldl
    (fun result i => result + coefficients.getD i 0 * x ^ i) 0

/-- Model of the accumulation loop shared by the two
`ShamirSecretSharing.lagrange_coefficient` implementations (identical in both
source files): with `xi = shares[i].x`, iterate over the enumerated share
list and, for every index `j != i`, perform
`numerator = (numerator * (-xj)) % self.prime` and
`denominator = (denominator * (xi - xj)) % self.prime`,
both starting from `1`.  The two files differ only in the modular-inverse
routine applied to the result, so that final step is kept separate. -/
def lagrange_num_den {p : ℕ} (shares : List (SecretShare p)) (i : ℕ) : ZMod p × ZMod p :=
  (List.range shares.length).foldl
    (fun nd j =>
      if i ≠ j then
        (nd.1 * -(shares.getD j ⟨0, 0⟩).x,
         nd.2 * ((shares.getD i ⟨0, 0⟩).x - (shares.getD j ⟨0, 0⟩).x))
      else nd)
    (1, 1)

/-- Model of `ShamirSecretSharing.create_shares` (identical in both source
files) applied to an already-sampled polynomial: the share list
`[(i, evaluate_polynomial(coefficients, i)) for i in 1..num_parties]`.
The random sampling done by `generate_polynomial` is quantified over
explicitly in the theorems (a coefficient list whose head is the secret). -/
def create_shares {p : ℕ} (coefficients : List (ZMod p)) (num_parties : ℕ) :
    List (SecretShare p) :=
  (List.range num_parties).map
    (fun i => ⟨((i + 1 : ℕ) : ZMod p), evaluate_polynomial coefficients ((i + 1 : ℕ) : ZMod p)⟩)

/-- Model of `get_private_share` (identical in `BLSThresholdSignature` and
`ThresholdSignature`): raises `ValueError` — the spec's `UnknownParty` —
unless `1 <= party_id <= num_parties`, else returns
`private_shares[party_id - 1]`. -/
def get_private_share {p : ℕ} (private_shares : List (SecretShare p)) (num_parties : ℕ)
    (party_id : ℕ) : Except SigError (SecretShare p) :=
  if party_id < 1 ∨ party_id > num_parties then .error .unknownParty
  else .ok (private_shares.getD (party_id - 1) ⟨0, 0⟩)

namespace BLS

/-- Model of `py_ecc.utils.prime_field_inv` (extended Euclid over the prime
curve order; the py_ecc routine returns `0` on input `0` rather than
raising).  For a prime modulus it equals the Fermat exponentiation
`a ^ (p - 2)` — spec section 4.1 sanctions either realisation of the modular
inverse — which is the executable form used here; it also sends `0 ↦ 0`
whenever `p > 2`, matching py_ecc. -/
def prime_field_inv {p : ℕ} (a : ZMod p) : ZMod p := a ^ (p - 2)

/-- Model of `ShamirSecretSharing.lagrange_coefficient` in
`BLS_Threshold_Signature.py`: the shared numerator/denominator loop followed
by `(numerator * prime_field_inv(denominator, self.prime)) % self.prime`.
Total: py_ecc's inverse does not raise on a zero denominator. -/
def lagrange_coefficient {p : ℕ} (shares : List (SecretShare p)) (i : ℕ) : ZMod p :=
  (lagrange_num_den shares i).1 * prime_field_inv (lagrange_num_den shares i).2

/-- The BN128 `G1` subgroup has prime order `p` (`curve_order`) and every
point the BLS code handles is produced from the generator `G1` by
`py_ecc.bn128.multiply` and `add`, which implement the group law; points are
therefore represented by their discrete logarithm to base the generator.
`0` is the identity (py_ecc's `None`). -/
abbrev G1Point (p : ℕ) := ZMod p

/-- Model of py_ecc `multiply(pt, n)` in discrete-log coordinates.  Every
scalar the source passes is already reduced modulo `curve_order`. -/
def multiply {p : ℕ} (pt : G1Point p) (n : ZMod p) : G1Point p := n * pt

/-- Model of py_ecc `add` in discrete-log coordinates. -/
def addP {p : ℕ} (a b : G1Point p) : G1Point p := a + b

/-- The generator `G1` (discrete log `1`). -/
def G1gen (p : ℕ) : G1Point p := 1

/-- Model of `hash_to_g1`:
`scalar = int.from_bytes(sha256(message).digest(), 'big') % curve_order`
followed by `multiply(G1, scalar)`.  SHA-256 (Python `hashlib`, external) is
abstracted: `hash_int` stands for the digest of the message read as a
big-endian integer. -/
def hash_to_g1 {p : ℕ} (hash_int : ℕ) : G1Point p := multiply (G1gen p) (hash_int : ZMod p)

/-- Model of the `BLSPartialSignature` dataclass: a signer id and a `G1`
point. -/
structure BLSPartialSignature (p : ℕ) where
  signer_id : ℕ
  signature : G1Point p
  deriving DecidableEq

/-- Model of `BLSThresholdSignature.create_partial_signature`: look up the
party's private share (`UnknownParty` if the id is out of range), hash the
message to `G1` and return `(party_id, multiply(h, share.y))`. -/
def create_partial_signature {p : ℕ} (private_shares : List (SecretShare p))
    (num_parties : ℕ) (party_id : ℕ) (hash_int : ℕ) :
    Except SigError (BLSPartialSignature p) := do
  let private_share ← get_private_share private_shares num_parties party_id
  let h := hash_to_g1 (p := p) hash_int
  .ok ⟨party_id, multiply h private_share.y⟩

/-- Model of `BLSThresholdSignature.combine_signatures`: raise `ValueError`
(the spec's `InsufficientSigners`) when fewer than `threshold` partial
signatures are supplied; otherwise take the first `threshold` of them, build
a dummy share list carrying only their signer ids (`y = 0`), and accumulate
`multiply(sig.signature, lagrange_coefficient(shares, i))` into an
accumulator that starts as the Python sentinel `None` and is combined with
`add` afterwards. -/
def combine_signatures {p : ℕ} (threshold : ℕ)
    (partial_sigs : List (BLSPartialSignature p)) :
    Except SigError (Option (G1Point p)) :=
  if partial_sigs.length < threshold then .error .insufficientSigners
  else
    let selected_sigs := partial_sigs.take threshold
    let shares : List (SecretShare p) :=
      selected_sigs.map (fun sig => ⟨(sig.signer_id : ZMod p), 0⟩)
    .ok ((List.range selected_sigs.length).foldl
      (fun combined i =>
        let coeff := lagrange_coefficient shares i
        let weighted := multiply (selected_sigs.getD i ⟨0, 0⟩).signature coeff
        match combined with
        | none => some weighted
        | some c => some (addP c weighted))
      none)

/-- Model of `BLSThresholdSignature.get_public_key_share`: raises
`ValueError` (`UnknownParty`) unless `1 <= party_id <= num_parties`, else
returns `public_key_shares[party_id - 1][1]`.  `G2T` is the (external)
py_ecc `G2` point type, `d` the out-of-range list default. -/
def get_public_key_share {G2T : Type} (public_key_shares : List G2T) (d : G2T)
    (num_parties : ℕ) (party_id : ℕ) : Except SigError G2T :=
  if party_id < 1 ∨ party_id > num_parties then .error .unknownParty
  else .ok (public_key_shares.getD (party_id - 1) d)

/-- Body of the `try` block of `BLSThresholdSignature.verify_signature`:
hash the message to `G1`, then compare `pairing(G2, signature)` with
`pairing(public_key, h)`.  The py_ecc pairing is external and may raise (for
instance on a malformed curve point), so it is modelled as an arbitrary
fallible function `pairing` into an arbitrary target-group type `GT`;
`g2` is the fixed `G2` generator and `public_key` the context's `PK`. -/
def verify_signature_inner {p : ℕ} {G2T GT : Type} [DecidableEq GT]
    (pairing : G2T → G1Point p → Except SigError GT)
    (public_key g2 : G2T) (signature : G1Point p) (hash_int : ℕ) :
    Except SigError Bool := do
  let h := hash_to_g1 (p := p) hash_int
  let lhs ← pairing g2 signature
  let rhs ← pairing public_key h
  .ok (decide (lhs = rhs))

/-- Model of `BLSThresholdSignature.verify_signature`: the `try`/`except
Exception` wrapper around `verify_signature_inner` — any exception raised by
the body is swallowed and reported as `False`. -/
def verify_signature {p : ℕ} {G2T GT : Type} [DecidableEq GT]
    (pairing : G2T → G1Point p → Except SigError GT)
    (public_key g2 : G2T) (signature : G1Point p) (hash_int : ℕ) : Bool :=
  match verify_signature_inner pairing public_key g2 signature hash_int with
  | .ok b => b
  | .error _ => false

/-- Body of the `try` block of
`BLSThresholdSignature.verify_partial_signature`: look up the signer's
public-key share (which raises `ValueError` for an out-of-range id), hash
the message to `G1`, then compare `pairing(G2, partial_sig.signature)` with
`pairing(pk_share, h)`. -/
def verify_partial_signature_inner {p : ℕ} {G2T GT : Type} [DecidableEq GT]
    (pairing : G2T → G1Point p → Except SigError GT)
    (public_key_shares : List G2T) (d : G2T) (num_parties : ℕ) (g2 : G2T)
    (partial_sig : BLSPartialSignature p) (hash_int : ℕ) :
    Except SigError Bool := do
  let pk_share ← get_public_key_share public_key_shares d num_parties partial_sig.signer_id
  let h := hash_to_g1 (p := p) hash_int
  let lhs ← pairing g2 partial_sig.signature
  let rhs ← pairing pk_share h
  .ok (decide (lhs = rhs))

/-- Model of `BLSThresholdSignature.verify_partial_signature`: the
`try`/`except Exception` wrapper — any exception raised by the body
(unknown party, pairing failure) is swallowed and reported as `False`. -/
def verify_partial_signature {p : ℕ} {G2T GT : Type} [DecidableEq GT]
    (pairing : G2T → G1Point p → Except SigError GT)
    (public_key_shares : List G2T) (d : G2T) (num_parties : ℕ) (g2 : G2T)
    (partial_sig : BLSPartialSignature p) (hash_int : ℕ) : Bool :=
  match verify_partial_signature_inner pairing public_key_shares d num_parties g2
      partial_sig hash_int with
  | .ok b => b
  | .error _ => false

end BLS

namespace ECDSA

/-- Model of the `PartialSignature` dataclass of
`ECDSA_Threshold_Signature.py`: signer id and the two signature scalars. -/
structure PartialSignature (p : ℕ) where
  signer_id : ℕ
  r : ZMod p
  s : ZMod p
  deriving DecidableEq

/-- Model of `Crypto.Util.number.inverse` (pycryptodome, external): an
extended-Euclid modular inverse that raises `ValueError` — the spec's
`InvalidInput` ("zero modulus-inverse request") — exactly when the inverse
does not exist, which for the prime modulus used throughout means input `0`;
on invertible input it is realised by the Fermat form `a ^ (p - 2)`
(spec section 4.1 sanctions either realisation). -/
def inverse {p : ℕ} (a : ZMod p) : Except SigError (ZMod p) :=
  if a = 0 then .error .invalidInput else .ok (a ^ (p - 2))

/-- Model of `ShamirSecretSharing.lagrange_coefficient` in
`ECDSA_Threshold_Signature.py`: the shared numerator/denominator loop
followed by `(numerator * inverse(denominator, self.prime)) % self.prime`,
where `inverse` raises on a zero denominator. -/
def lagrange_coefficient {p : ℕ} (shares : List (SecretShare p)) (i : ℕ) :
    Except SigError (ZMod p) := do
  let inv ← inverse (lagrange_num_den shares i).2
  .ok ((lagrange_num_den shares i).1 * inv)

/-- Model of `ShamirSecretSharing.reconstruct_secret`: raise `ValueError`
(`InsufficientSigners`) when fewer than `threshold` shares are supplied;
otherwise accumulate `secret = (secret + share.y * coeff) % self.prime`
over the first `threshold` shares. -/
def reconstruct_secret {p : ℕ} (threshold : ℕ) (shares : List (SecretShare p)) :
    Except SigError (ZMod p) :=
  if shares.length < threshold then .error .insufficientSigners
  else
    let selected_shares := shares.take threshold
    (List.range selected_shares.length).foldlM
      (fun secret i => do
        let coeff ← lagrange_coefficient selected_shares i
        pure (secret + (selected_shares.getD i ⟨0, 0⟩).y * coeff))
      0

/-- Model of `ThresholdSignature.create_partial_signature` with the nonce
`k` supplied explicitly (the claims fix `k`; the `_shared_k` lazy caching is
caller-side state).  `pointX k` models `(k * SECP256k1.generator).x()`, the
external `ecdsa`-library scalar multiplication; `hash_int` is the SHA-256
digest of the message as a big-endian integer.  Mirroring the source, the
computed `r = point.x() % prime` is **not** checked against `0`. -/
def create_partial_signature {p : ℕ} (pointX : ℕ → ℕ)
    (private_shares : List (SecretShare p)) (num_parties : ℕ)
    (party_id : ℕ) (hash_int : ℕ) (k : ℕ) : Except SigError (PartialSignature p) := do
  let private_share ← get_private_share private_shares num_parties party_id
  let hashInt : ZMod p := (hash_int : ZMod p)
  let r : ZMod p := ((pointX k : ℕ) : ZMod p)
  let k_inv ← inverse ((k : ℕ) : ZMod p)
  .ok ⟨party_id, r, k_inv * (hashInt + r * private_share.y)⟩

/-- Model of `ThresholdSignature.combine_signatures`: `ValueError`
(`InsufficientSigners`) when fewer than `threshold` partials are supplied;
`ValueError` (`InconsistentNonce`) when `len(set(r_values)) != 1` over **all**
supplied partials; otherwise take `r` from the first partial, build shares
`(sig.signer_id, sig.s)` from the first `threshold` partials and reconstruct
the combined `s`.  The `message` argument is accepted and, as in the source,
never used.  `M` is the type of messages (byte strings). -/
def combine_signatures {p : ℕ} {M : Type} (threshold : ℕ)
    (partial_sigs : List (PartialSignature p)) (message : M) :
    Except SigError (ZMod p × ZMod p) :=
  if partial_sigs.length < threshold then .error .insufficientSigners
  else if (partial_sigs.map PartialSignature.r).dedup.length ≠ 1 then
    .error .inconsistentNonce
  else
    let r := (partial_sigs.getD 0 ⟨0, 0, 0⟩).r
    let s_shares := (partial_sigs.take threshold).map
      (fun sig => SecretShare.mk (sig.signer_id : ZMod p) sig.s)
    do
      let s_combined ← reconstruct_secret threshold s_shares
      .ok (r, s_combined)

/-- An affine secp256k1 point or the point at infinity, as handled by the
external `ecdsa` library (`ellipticcurve.Point` / `INFINITY`). -/
inductive ECPoint where
  | infinity
  | affine (x y : ℕ)
  deriving DecidableEq

/-- Model of `ecdsa.ellipticcurve.Point.x()`, which returns `None` on
`INFINITY`. -/
def ECPoint.xOpt : ECPoint → Option ℕ
  | .infinity => none
  | .affine x _ => some x

/-- Body of the `try` block of `ThresholdSignature.verify_signature`.
`r` and `s` are the Python signature integers; `hash_int` is the SHA-256
digest of the message; `mulG n` models `n * SECP256k1.generator`, `mulQ n`
models `n * self.public_key.pubkey.point`, and `padd` the library point
addition (all external `ecdsa`-library operations).  If `r` or `s` falls
outside `[1, p)` the function returns `False`; otherwise it computes
`w = inverse(s, p)`, `u1 = hash * w`, `u2 = r * w`, adds the two scalar
multiples, and compares `r == result_point.x() % prime`.  When the result
point is `INFINITY`, `x()` is `None` and `None % prime` raises `TypeError`,
modelled as an error (caught by the wrapper). -/
def verify_signature_inner {p : ℕ} (mulG mulQ : ℕ → ECPoint)
    (padd : ECPoint → ECPoint → ECPoint) (r s : ℤ) (hash_int : ℕ) :
    Except SigError Bool :=
  if r ≤ 0 ∨ r ≥ (p : ℤ) ∨ s ≤ 0 ∨ s ≥ (p : ℤ) then .ok false
  else
    (inverse ((s : ZMod p))).bind fun w =>
      let u1 : ZMod p := (hash_int : ZMod p) * w
      let u2 : ZMod p := ((r : ZMod p)) * w
      match (padd (mulG u1.val) (mulQ u2.val)).xOpt with
      | none => .error .invalidInput
      | some x => .ok (decide (r = ((x % p : ℕ) : ℤ)))

/-- Model of `ThresholdSignature.verify_signature`: the `try`/`except
Exception` wrapper — any exception raised by the body is swallowed and
reported as `False`. -/
def verify_signature {p : ℕ} (mulG mulQ : ℕ → ECPoint)
    (padd : ECPoint → ECPoint → ECPoint) (r s : ℤ) (hash_int : ℕ) : Bool :=
  match verify_signature_inner (p := p) mulG mulQ padd r s hash_int with
  | .ok b => b
  | .error _ => false

end ECDSA

/-! Helper lemmas: turning the modelled Python loops into `Finset` sums and
products, and relating the Fermat-form modular inverse to the field
inverse. -/

theorem foldl_range_add {M : Type*} [AddCommMonoid M] (g : ℕ → M) (n : ℕ) (init : M) :
    (List.range n).foldl (fun a i => a + g i) init = init + ∑ i ∈ Finset.range n, g i := by
  induction n with
  | zero => simp
  | succ n ih =>
    rw [List.range_succ, List.foldl_append, ih, Finset.sum_range_succ]
    simp [add_assoc]

theorem foldl_range_pair_mul {M : Type*} [CommMonoid M] (f g : ℕ → M)
    (P : ℕ → Prop) [DecidablePred P] (n : ℕ) (a b : M) :
    (List.range n).foldl
      (fun nd j => if P j then (nd.1 * f j, nd.2 * g j) else nd) (a, b) =
    (a * ∏ j ∈ (Finset.range n).filter P, f j,
     b * ∏ j ∈ (Finset.range n).filter P, g j) := by
  induction n with
  | zero => simp
  | succ n ih =>
    rw [List.range_succ, List.foldl_append, ih]
    by_cases hP : P n
    · have hnot : n ∉ (Finset.range n).filter P :=
        fun h => Finset.not_mem_range_self (Finset.mem_filter.mp h).1
      simp only [List.foldl_cons, List.foldl_nil, if_pos hP, Finset.range_succ,
        Finset.filter_insert, Finset.prod_insert hnot]
      rw [Prod.mk.injEq]
      exact ⟨by rw [mul_assoc, mul_comm _ (f n)], by rw [mul_assoc, mul_comm _ (g n)]⟩
    · simp only [List.foldl_cons, List.foldl_nil, if_neg hP, Finset.range_succ,
        Finset.filter_insert, if_neg hP]

theorem lagrange_num_den_eq {p : ℕ} (shares : List (SecretShare p)) (i : ℕ) :
    lagrange_num_den shares i =
      (∏ j ∈ (Finset.range shares.length).filter (fun j => i ≠ j),
          -(shares.getD j ⟨0, 0⟩).x,
       ∏ j ∈ (Finset.range shares.length).filter (fun j => i ≠ j),
          ((shares.getD i ⟨0, 0⟩).x - (shares.getD j ⟨0, 0⟩).x)) := by
  unfold lagrange_num_den
  rw [foldl_range_pair_mul]
  simp

theorem sum_range_getD {α : Type*} {M : Type*} [AddCommMonoid M] (l : List α) (d : α)
    (f : α → M) :
    ∑ i ∈ Finset.range l.length, f (l.getD i d) = (l.map f).sum := by
  induction l with
  | nil => simp
  | cons a l ih =>
    rw [List.length_cons, Finset.sum_range_succ']
    simp only [List.getD_cons_succ, List.getD_cons_zero, ih, List.map_cons, List.sum_cons]
    exact add_comm _ _

theorem evaluate_polynomial_eq_sum {p : ℕ} (coefficients : List (ZMod p)) (x : ZMod p) :
    evaluate_polynomial coefficients x =
      ∑ i ∈ Finset.range coefficients.length, coefficients.getD i 0 * x ^ i := by
  unfold evaluate_polynomial
  rw [foldl_range_add]
  simp

theorem pow_sub_two_eq_inv {p : ℕ} [Fact p.Prime] {a : ZMod p} (ha : a ≠ 0) :
    a ^ (p - 2) = a⁻¹ := by
  have h2 : 2 ≤ p := (Fact.out : p.Prime).two_le
  have hmul : a * a ^ (p - 2) = 1 := by
    have : a * a ^ (p - 2) = a ^ (p - 1) := by
      rw [← pow_succ']
      congr 1
      omega
    rw [this]
    exact ZMod.pow_card_sub_one_eq_one ha
  exact (inv_eq_of_mul_eq_one_right hmul).symm

theorem getD_eq_getElem {α : Type*} (l : List α) (d : α) {n : ℕ} (h : n < l.length) :
    l.getD n d = l[n] := by
  rw [List.getD_eq_getElem?_getD, List.getElem?_eq_getElem h, Option.getD_some]

theorem getD_x_eq {p : ℕ} (shares : List (SecretShare p)) {j : ℕ} (hj : j < shares.length) :
    (shares.getD j ⟨0, 0⟩).x = (shares.map SecretShare.x).getD j 0 := by
  rw [getD_eq_getElem shares _ hj, getD_eq_getElem _ _ (by simpa using hj)]
  simp

/-- Value-level Lagrange coefficient at zero for the node `xi` in the node
set `s`: the product the modelled index-based loop computes when the node
list has no duplicates. -/
def lagrangeAt {p : ℕ} (s : Finset (ZMod p)) (xi : ZMod p) : ZMod p :=
  (∏ y ∈ s.erase xi, -y) * (∏ y ∈ s.erase xi, (xi - y))⁻¹

theorem prod_filter_ne_eq_erase {α : Type*} {M : Type*} [DecidableEq α] [CommMonoid M]
    (l : List α) (d : α) (hnd : l.Nodup) {i : ℕ} (hi : i < l.length) (f : α → M) :
    ∏ j ∈ (Finset.range l.length).filter (fun j => i ≠ j), f (l.getD j d) =
      ∏ y ∈ l.toFinset.erase (l.getD i d), f y := by
  refine Finset.prod_bij (fun j _ => l.getD j d) ?_ ?_ ?_ ?_
  · intro j hj
    obtain ⟨hjr, hne⟩ := Finset.mem_filter.mp hj
    have hjl : j < l.length := Finset.mem_range.mp hjr
    show l.getD j d ∈ l.toFinset.erase (l.getD i d)
    rw [Finset.mem_erase]
    refine ⟨?_, ?_⟩
    · rw [getD_eq_getElem l d hjl, getD_eq_getElem l d hi]
      intro h
      exact hne ((hnd.getElem_inj_iff).mp h).symm
    · rw [getD_eq_getElem l d hjl]
      exact List.mem_toFinset.mpr (List.getElem_mem hjl)
  · intro j₁ hj₁ j₂ hj₂ h
    have h₁ : j₁ < l.length := Finset.mem_range.mp (Finset.mem_filter.mp hj₁).1
    have h₂ : j₂ < l.length := Finset.mem_range.mp (Finset.mem_filter.mp hj₂).1
    have h' : l.getD j₁ d = l.getD j₂ d := h
    rw [getD_eq_getElem l d h₁, getD_eq_getElem l d h₂] at h'
    exact (hnd.getElem_inj_iff).mp h'
  · intro y hy
    obtain ⟨hyne, hymem⟩ := Finset.mem_erase.mp hy
    obtain ⟨n, hn, hval⟩ := List.mem_iff_getElem.mp (List.mem_toFinset.mp hymem)
    have hnf : n ∈ (Finset.range l.length).filter (fun j => i ≠ j) := by
      refine Finset.mem_filter.mpr ⟨Finset.mem_range.mpr hn, ?_⟩
      intro h
      apply hyne
      subst h
      rw [getD_eq_getElem l d hn]
      exact hval.symm
    refine ⟨n, hnf, ?_⟩
    show l.getD n d = y
    rw [getD_eq_getElem l d hn, hval]
  · intro j _
    rfl

theorem lagrange_den_eq_prod {p : ℕ} (shares : List (SecretShare p))
    (hnd : (shares.map SecretShare.x).Nodup) {i : ℕ} (hi : i < shares.length) :
    (lagrange_num_den shares i).2 =
      ∏ y ∈ ((shares.map SecretShare.x).toFinset).erase ((shares.getD i ⟨0, 0⟩).x),
        ((shares.getD i ⟨0, 0⟩).x - y) := by
  rw [lagrange_num_den_eq]
  have hlen : (shares.map SecretShare.x).length = shares.length := by simp
  have h1 : ∀ j ∈ (Finset.range shares.length).filter (fun j => i ≠ j),
      (shares.getD i ⟨0, 0⟩).x - (shares.getD j ⟨0, 0⟩).x =
      (shares.getD i ⟨0, 0⟩).x - (shares.map SecretShare.x).getD j 0 := by
    intro j hj
    rw [getD_x_eq shares (Finset.mem_range.mp (Finset.mem_filter.mp hj).1)]
  rw [Finset.prod_congr rfl h1, ← hlen,
    prod_filter_ne_eq_erase _ 0 hnd (by rw [hlen]; exact hi)
      (fun y => (shares.getD i ⟨0, 0⟩).x - y), getD_x_eq shares hi]

theorem lagrange_num_eq_prod {p : ℕ} (shares : List (SecretShare p))
    (hnd : (shares.map SecretShare.x).Nodup) {i : ℕ} (hi : i < shares.length) :
    (lagrange_num_den shares i).1 =
      ∏ y ∈ ((shares.map SecretShare.x).toFinset).erase ((shares.getD i ⟨0, 0⟩).x),
        (-y) := by
  rw [lagrange_num_den_eq]
  have hlen : (shares.map SecretShare.x).length = shares.length := by simp
  have h1 : ∀ j ∈ (Finset.range shares.length).filter (fun j => i ≠ j),
      -(shares.getD j ⟨0, 0⟩).x = -((shares.map SecretShare.x).getD j 0) := by
    intro j hj
    rw [getD_x_eq shares (Finset.mem_range.mp (Finset.mem_filter.mp hj).1)]
  rw [Finset.prod_congr rfl h1, ← hlen,
    prod_filter_ne_eq_erase _ 0 hnd (by rw [hlen]; exact hi) (fun y => -y),
    getD_x_eq shares hi]

theorem lagrange_den_ne_zero {p : ℕ} [Fact p.Prime] (shares : List (SecretShare p))
    (hnd : (shares.map SecretShare.x).Nodup) {i : ℕ} (hi : i < shares.length) :
    (lagrange_num_den shares i).2 ≠ 0 := by
  rw [lagrange_den_eq_prod shares hnd hi]
  rw [Finset.prod_ne_zero_iff]
  intro y hy
  have hyne := (Finset.mem_erase.mp hy).1
  exact sub_ne_zero_of_ne (Ne.symm hyne)

theorem lagrange_coefficient_eq_lagrangeAt {p : ℕ} [Fact p.Prime]
    (shares : List (SecretShare p)) (hnd : (shares.map SecretShare.x).Nodup)
    {i : ℕ} (hi : i < shares.length) :
    BLS.lagrange_coefficient shares i =
      lagrangeAt ((shares.map SecretShare.x).toFinset) ((shares.getD i ⟨0, 0⟩).x) := by
  unfold BLS.lagrange_coefficient BLS.prime_field_inv
  rw [pow_sub_two_eq_inv (lagrange_den_ne_zero shares hnd hi),
    lagrange_den_eq_prod shares hnd hi, lagrange_num_eq_prod shares hnd hi]
  rfl

theorem lagrangeAt_eq_basis_eval {p : ℕ} [Fact p.Prime] (s : Finset (ZMod p)) (xi : ZMod p) :
    lagrangeAt s xi = Polynomial.eval 0 (Lagrange.basis s id xi) := by
  unfold lagrangeAt
  rw [Lagrange.basis, Polynomial.eval_prod, ← Finset.prod_inv_distrib,
    ← Finset.prod_mul_distrib]
  refine (Finset.prod_congr rfl fun y _ => ?_).symm
  simp only [Lagrange.basisDivisor, Polynomial.eval_mul, Polynomial.eval_C,
    Polynomial.eval_sub, Polynomial.eval_X, id_eq, zero_sub]
  rw [mul_comm]

theorem evaluate_polynomial_eq_eval {p : ℕ} (coefficients : List (ZMod p)) (x : ZMod p) :
    evaluate_polynomial coefficients x =
      Polynomial.eval x (∑ i ∈ Finset.range coefficients.length,
        Polynomial.C (coefficients.getD i 0) * Polynomial.X ^ i) := by
  rw [evaluate_polynomial_eq_sum, Polynomial.eval_finset_sum]
  simp

theorem degree_coeffPoly_lt {p : ℕ} (coefficients : List (ZMod p)) :
    (∑ i ∈ Finset.range coefficients.length,
      Polynomial.C (coefficients.getD i 0) * Polynomial.X ^ i).degree <
      (coefficients.length : WithBot ℕ) := by
  apply lt_of_le_of_lt (Polynomial.degree_sum_le _ _)
  rw [Finset.sup_lt_iff (WithBot.bot_lt_coe _)]
  intro i hi
  apply lt_of_le_of_lt (Polynomial.degree_C_mul_X_pow_le _ _)
  exact_mod_cast Finset.mem_range.mp hi

theorem coeffPoly_eval_zero {p : ℕ} (coefficients : List (ZMod p)) (hne : coefficients ≠ []) :
    Polynomial.eval 0 (∑ i ∈ Finset.range coefficients.length,
      Polynomial.C (coefficients.getD i 0) * Polynomial.X ^ i) =
      coefficients.getD 0 0 := by
  rw [Polynomial.eval_finset_sum, Finset.sum_eq_single 0]
  · simp
  · intro i _ hi0
    simp [zero_pow hi0]
  · intro h
    exact absurd (Finset.mem_range.mpr (List.length_pos.mpr hne)) h

/-- Core interpolation identity: for a share list whose `x`-values are
pairwise distinct and as numerous as the polynomial's coefficients, the
source's index-based Lagrange coefficients recover the constant term:
`Σ_i L_i · f(x_i) = a₀`. -/
theorem sum_lagrange_eval {p : ℕ} [Fact p.Prime] (coefficients : List (ZMod p))
    (shares : List (SecretShare p)) (hnd : (shares.map SecretShare.x).Nodup)
    (hlen : shares.length = coefficients.length) (hne : coefficients ≠ []) :
    ∑ i ∈ Finset.range shares.length,
      BLS.lagrange_coefficient shares i *
        evaluate_polynomial coefficients (shares.getD i ⟨0, 0⟩).x =
      coefficients.getD 0 0 := by
  classical
  set f : Polynomial (ZMod p) := ∑ i ∈ Finset.range coefficients.length,
    Polynomial.C (coefficients.getD i 0) * Polynomial.X ^ i with hf
  set xs := shares.map SecretShare.x with hxs
  set s : Finset (ZMod p) := xs.toFinset with hs
  have hlxs : xs.length = shares.length := by simp [hxs]
  have hterm : ∀ i ∈ Finset.range shares.length,
      BLS.lagrange_coefficient shares i *
        evaluate_polynomial coefficients (shares.getD i ⟨0, 0⟩).x =
      lagrangeAt s (xs.getD i 0) * Polynomial.eval (xs.getD i 0) f := by
    intro i hi
    have hi' := Finset.mem_range.mp hi
    rw [lagrange_coefficient_eq_lagrangeAt shares hnd hi', evaluate_polynomial_eq_eval,
      getD_x_eq shares hi']
  rw [Finset.sum_congr rfl hterm]
  have hsum : ∑ i ∈ Finset.range shares.length,
      lagrangeAt s (xs.getD i 0) * Polynomial.eval (xs.getD i 0) f =
      ∑ y ∈ s, lagrangeAt s y * Polynomial.eval y f := by
    rw [← hlxs, sum_range_getD xs 0 (fun y => lagrangeAt s y * Polynomial.eval y f),
      ← List.sum_toFinset _ hnd]
  rw [hsum]
  have hcard : s.card = coefficients.length := by
    rw [hs, List.toFinset_card_of_nodup hnd, hlxs, hlen]
  have hdeg : f.degree < s.card := by
    rw [hcard]
    exact degree_coeffPoly_lt coefficients
  have hinj : Set.InjOn id (s : Set (ZMod p)) := fun a _ b _ h => h
  calc ∑ y ∈ s, lagrangeAt s y * Polynomial.eval y f
      = ∑ y ∈ s, Polynomial.eval (id y) f * Polynomial.eval 0 (Lagrange.basis s id y) := by
        refine Finset.sum_congr rfl fun y _ => ?_
        rw [lagrangeAt_eq_basis_eval, mul_comm]
        rfl
    _ = Polynomial.eval 0 (Lagrange.interpolate s id (fun i => Polynomial.eval (id i) f)) := by
        rw [Lagrange.interpolate_apply, Polynomial.eval_finset_sum]
        refine (Finset.sum_congr rfl fun y _ => ?_).symm
        rw [Polynomial.eval_mul, Polynomial.eval_C]
    _ = Polynomial.eval 0 f := by rw [← Lagrange.eq_interpolate hinj hdeg]
    _ = coefficients.getD 0 0 := coeffPoly_eval_zero coefficients hne

theorem ecdsa_lagrange_eq_ok {p : ℕ} (shares : List (SecretShare p)) (i : ℕ)
    (h : (lagrange_num_den shares i).2 ≠ 0) :
    ECDSA.lagrange_coefficient shares i = .ok (BLS.lagrange_coefficient shares i) := by
  unfold ECDSA.lagrange_coefficient ECDSA.inverse BLS.lagrange_coefficient BLS.prime_field_inv
  rw [if_neg h]
  rfl

theorem foldlM_bind_ok {E α β : Type} (F : ℕ → Except E α) (f : ℕ → α)
    (step : β → ℕ → α → β) (l : List ℕ) (h : ∀ i ∈ l, F i = .ok (f i)) :
    ∀ init : β,
      l.foldlM (fun acc i => (F i).bind (fun c => pure (step acc i c))) init =
        .ok (l.foldl (fun acc i => step acc i (f i)) init) := by
  induction l with
  | nil => intro init; rfl
  | cons a l ih =>
    intro init
    rw [List.foldlM_cons, h a (List.mem_cons_self a l)]
    show l.foldlM _ (step init a (f a)) = _
    rw [ih (fun i hi => h i (List.mem_cons_of_mem a hi))]
    rfl

theorem mapM_ok_of_ok {E α β : Type} (f : α → Except E β) (g : α → β) (l : List α)
    (h : ∀ a ∈ l, f a = .ok (g a)) : l.mapM f = .ok (l.map g) := by
  induction l with
  | nil => rfl
  | cons a l ih =>
    rw [List.mapM_cons, h a (List.mem_cons_self a l),
      ih (fun b hb => h b (List.mem_cons_of_mem a hb))]
    rfl

theorem foldl_option_sum {M : Type*} [AddCommMonoid M] (g : ℕ → M)
    (step : Option M → ℕ → Option M)
    (h1 : ∀ i, step none i = some (g i)) (h2 : ∀ c i, step (some c) i = some (c + g i))
    (n : ℕ) (hn : 1 ≤ n) :
    (List.range n).foldl step none = some (∑ i ∈ Finset.range n, g i) := by
  induction n with
  | zero => omega
  | succ n ih =>
    rw [List.range_succ, List.foldl_append]
    by_cases h : n = 0
    · subst h
      simp [h1, Finset.sum_range_one]
    · rw [ih (by omega)]
      simp [h2, Finset.sum_range_succ]

theorem reconstruct_secret_eq_sum {p : ℕ} [Fact p.Prime] (t : ℕ)
    (shares : List (SecretShare p)) (hlen : shares.length = t)
    (hnd : (shares.map SecretShare.x).Nodup) :
    ECDSA.reconstruct_secret t shares =
      .ok (∑ i ∈ Finset.range t,
        (shares.getD i ⟨0, 0⟩).y * BLS.lagrange_coefficient shares i) := by
  have hnot : ¬ shares.length < t := by omega
  have htake : shares.take t = shares := by rw [← hlen, List.take_length]
  simp only [ECDSA.reconstruct_secret, if_neg hnot, htake]
  have hall : ∀ i ∈ List.range shares.length,
      ECDSA.lagrange_coefficient shares i = .ok (BLS.lagrange_coefficient shares i) := by
    intro i hi
    exact ecdsa_lagrange_eq_ok shares i
      (lagrange_den_ne_zero shares hnd (List.mem_range.mp hi))
  have hfold := foldlM_bind_ok (ECDSA.lagrange_coefficient shares)
    (BLS.lagrange_coefficient shares)
    (fun acc i c => acc + (shares.getD i ⟨0, 0⟩).y * c) (List.range shares.length) hall 0
  refine Eq.trans hfold ?_
  congr 1
  rw [foldl_range_add
    (fun i => (shares.getD i ⟨0, 0⟩).y * BLS.lagrange_coefficient shares i), zero_add, hlen]

theorem combine_signatures_eq_sum {p : ℕ} (t : ℕ)
    (partial_sigs : List (BLS.BLSPartialSignature p)) (hlen : t ≤ partial_sigs.length)
    (ht : 1 ≤ t) :
    BLS.combine_signatures t partial_sigs =
      .ok (some (∑ i ∈ Finset.range t,
        BLS.lagrange_coefficient
          ((partial_sigs.take t).map (fun sig : BLS.BLSPartialSignature p => (⟨(sig.signer_id : ZMod p), 0⟩ : SecretShare p))) i *
          ((partial_sigs.take t).getD i ⟨0, 0⟩).signature)) := by
  have hnot : ¬ partial_sigs.length < t := not_lt.mpr hlen
  have hsel : (partial_sigs.take t).length = t := by
    rw [List.length_take]
    omega
  simp only [BLS.combine_signatures, if_neg hnot, hsel]
  congr 1
  exact foldl_option_sum
    (fun i => BLS.lagrange_coefficient
        ((partial_sigs.take t).map (fun sig : BLS.BLSPartialSignature p =>
          (⟨(sig.signer_id : ZMod p), 0⟩ : SecretShare p))) i *
      ((partial_sigs.take t).getD i ⟨0, 0⟩).signature)
    _ (fun i => rfl) (fun c i => rfl) t ht

theorem cast_ids_nodup {p : ℕ} [NeZero p] (ids : List ℕ) (hnd : ids.Nodup)
    (hlt : ∀ i ∈ ids, i < p) : (ids.map (fun i => ((i : ℕ) : ZMod p))).Nodup := by
  refine List.Nodup.map_on ?_ hnd
  intro a ha b hb h
  have ha' := ZMod.val_cast_of_lt (hlt a ha)
  have hb' := ZMod.val_cast_of_lt (hlt b hb)
  rw [← ha', ← hb', h]

theorem create_shares_getD {p : ℕ} (coefficients : List (ZMod p)) (n : ℕ) {i : ℕ}
    (h1 : 1 ≤ i) (h2 : i ≤ n) :
    (create_shares coefficients n).getD (i - 1) ⟨0, 0⟩ =
      ⟨((i : ℕ) : ZMod p), evaluate_polynomial coefficients ((i : ℕ) : ZMod p)⟩ := by
  have hlen : (create_shares coefficients n).length = n := by simp [create_shares]
  rw [getD_eq_getElem _ _ (by rw [hlen]; omega)]
  simp only [create_shares, List.getElem_map, List.getElem_range]
  have hsub : i - 1 + 1 = i := by omega
  rw [hsub]

theorem bls_create_partial_ok {p : ℕ} (coefficients : List (ZMod p)) (n : ℕ) {i : ℕ}
    (h1 : 1 ≤ i) (h2 : i ≤ n) (hash_int : ℕ) :
    BLS.create_partial_signature (create_shares coefficients n) n i hash_int =
      .ok ⟨i, BLS.multiply (BLS.hash_to_g1 hash_int)
        (evaluate_polynomial coefficients ((i : ℕ) : ZMod p))⟩ := by
  unfold BLS.create_partial_signature get_private_share
  rw [if_neg (by omega), create_shares_getD coefficients n h1 h2]
  rfl

theorem combine_sum_eq_list_sum {p : ℕ} [Fact p.Prime] (t : ℕ)
    (sel : List (BLS.BLSPartialSignature p)) (hsel : sel.length = t)
    (hnd : (sel.map (fun sig => (sig.signer_id : ZMod p))).Nodup) :
    ∑ i ∈ Finset.range t,
      BLS.lagrange_coefficient
        (sel.map (fun sig : BLS.BLSPartialSignature p =>
          (⟨(sig.signer_id : ZMod p), 0⟩ : SecretShare p))) i *
        (sel.getD i ⟨0, 0⟩).signature =
      (sel.map (fun sig =>
        lagrangeAt ((sel.map (fun q => (q.signer_id : ZMod p))).toFinset)
          (sig.signer_id : ZMod p) * sig.signature)).sum := by
  subst hsel
  set mk := sel.map (fun sig : BLS.BLSPartialSignature p =>
    (⟨(sig.signer_id : ZMod p), 0⟩ : SecretShare p)) with hmk
  have hmx : mk.map SecretShare.x = sel.map (fun q => (q.signer_id : ZMod p)) := by
    rw [hmk, List.map_map]
    rfl
  have hlenmk : mk.length = sel.length := by simp [hmk]
  have hterm : ∀ i ∈ Finset.range sel.length,
      BLS.lagrange_coefficient mk i * (sel.getD i ⟨0, 0⟩).signature =
      (fun sig : BLS.BLSPartialSignature p =>
        lagrangeAt ((sel.map (fun q => (q.signer_id : ZMod p))).toFinset)
          (sig.signer_id : ZMod p) * sig.signature) (sel.getD i ⟨0, 0⟩) := by
    intro i hi
    have hi' : i < sel.length := Finset.mem_range.mp hi
    have hxi : (mk.getD i ⟨0, 0⟩).x = ((sel.getD i ⟨0, 0⟩).signer_id : ZMod p) := by
      rw [getD_eq_getElem mk _ (by rw [hlenmk]; exact hi'), getD_eq_getElem sel _ hi']
      simp [hmk]
    rw [lagrange_coefficient_eq_lagrangeAt mk (by rw [hmx]; exact hnd)
        (by rw [hlenmk]; exact hi'), hmx, hxi]
  rw [Finset.sum_congr rfl hterm, sum_range_getD sel ⟨0, 0⟩
    (fun sig : BLS.BLSPartialSignature p =>
      lagrangeAt ((sel.map (fun q => (q.signer_id : ZMod p))).toFinset)
        (sig.signer_id : ZMod p) * sig.signature)]

/-- C2: for every coefficient list of length `t` and every list of `t`
pairwise-distinct nonzero x-values, feeding the shares
`(x, evaluate_polynomial(coefficients, x))` to `reconstruct_secret` returns
exactly the constant term `coefficients[0]`. -/
theorem lagrange_round_trip {p : ℕ} [Fact p.Prime] (t : ℕ) (coefficients : List (ZMod p))
    (xs : List (ZMod p)) (ht : 1 ≤ t) (hc : coefficients.length = t) (hx : xs.length = t)
    (hnd : xs.Nodup) (hnz : ∀ x ∈ xs, x ≠ 0) :
    ECDSA.reconstruct_secret t
      (xs.map (fun x => (⟨x, evaluate_polynomial coefficients x⟩ : SecretShare p))) =
      .ok (coefficients.getD 0 0) := by
  set shares := xs.map (fun x => (⟨x, evaluate_polynomial coefficients x⟩ : SecretShare p))
    with hsh
  have hlen : shares.length = t := by simp [hsh, hx]
  have hmapx : shares.map SecretShare.x = xs := by
    rw [hsh, List.map_map]
    exact List.map_id xs
  have hnd' : (shares.map SecretShare.x).Nodup := by
    rw [hmapx]
    exact hnd
  rw [reconstruct_secret_eq_sum t shares hlen hnd']
  congr 1
  have hterm : ∀ i ∈ Finset.range t,
      (shares.getD i ⟨0, 0⟩).y * BLS.lagrange_coefficient shares i =
      BLS.lagrange_coefficient shares i *
        evaluate_polynomial coefficients (shares.getD i ⟨0, 0⟩).x := by
    intro i hi
    have hi' : i < shares.length := by
      rw [hlen]
      exact Finset.mem_range.mp hi
    have hx' : i < xs.length := by
      rw [hx]
      exact Finset.mem_range.mp hi
    have hgd : shares.getD i ⟨0, 0⟩ =
        ⟨xs.getD i 0, evaluate_polynomial coefficients (xs.getD i 0)⟩ := by
      rw [getD_eq_getElem shares _ hi', getD_eq_getElem xs _ hx']
      simp [hsh]
    rw [hgd]
    exact mul_comm _ _
  rw [Finset.sum_congr rfl hterm, ← hlen]
  exact sum_lagrange_eval coefficients shares hnd' (by rw [hlen, hc])
    (by
      intro h
      rw [h] at hc
      simp at hc
      omega)

/-- C1: BLS uniqueness — combining the honest partial signatures of any
committee of `t` pairwise-distinct party ids in `{1..n}` yields exactly
`sk · HashToG1(m)`, where `sk = coefficients[0]` is the dealer's master
private key; the right-hand side does not mention the committee, so the
aggregate is the same group element whichever committee was chosen.
The dealer's random polynomial (`generate_polynomial`) is quantified over
as any coefficient list of length `t` headed by the secret; `hash_int`
abstracts the SHA-256 digest of the message. -/
theorem bls_uniqueness {p : ℕ} [Fact p.Prime] (t n : ℕ) (coefficients : List (ZMod p))
    (ids : List ℕ) (hash_int : ℕ) (partials : List (BLS.BLSPartialSignature p))
    (ht : 1 ≤ t) (hc : coefficients.length = t) (hlen : ids.length = t)
    (hnd : ids.Nodup) (hmem : ∀ i ∈ ids, 1 ≤ i ∧ i ≤ n) (hnp : n < p)
    (hpart : ids.mapM (fun i =>
        BLS.create_partial_signature (create_shares coefficients n) n i hash_int) =
      .ok partials) :
    BLS.combine_signatures t partials =
      .ok (some (BLS.multiply (BLS.hash_to_g1 hash_int) (coefficients.getD 0 0))) := by
  classical
  haveI : NeZero p := ⟨(Fact.out : p.Prime).ne_zero⟩
  have hok : ∀ i ∈ ids,
      BLS.create_partial_signature (create_shares coefficients n) n i hash_int =
      .ok (⟨i, BLS.multiply (BLS.hash_to_g1 hash_int)
        (evaluate_polynomial coefficients ((i : ℕ) : ZMod p))⟩ :
        BLS.BLSPartialSignature p) := by
    intro i hi
    exact bls_create_partial_ok coefficients n (hmem i hi).1 (hmem i hi).2 hash_int
  rw [mapM_ok_of_ok _ (fun i : ℕ => (⟨i, BLS.multiply (BLS.hash_to_g1 hash_int)
      (evaluate_polynomial coefficients ((i : ℕ) : ZMod p))⟩ :
      BLS.BLSPartialSignature p)) ids hok] at hpart
  injection hpart with hpeq
  subst hpeq
  set f : ℕ → BLS.BLSPartialSignature p := fun i =>
    ⟨i, BLS.multiply (BLS.hash_to_g1 hash_int)
      (evaluate_polynomial coefficients ((i : ℕ) : ZMod p))⟩ with hfdef
  have hplen : (ids.map f).length = t := by simp [hlen]
  rw [combine_signatures_eq_sum t (ids.map f) (by rw [hplen]) ht]
  have htake : (ids.map f).take t = ids.map f := by
    rw [← hplen, List.take_length]
  rw [htake]
  set mkL : List (SecretShare p) := (ids.map f).map
    (fun sig : BLS.BLSPartialSignature p =>
      (⟨(sig.signer_id : ZMod p), 0⟩ : SecretShare p)) with hmkdef
  have hmkx : mkL.map SecretShare.x = ids.map (fun i : ℕ => ((i : ℕ) : ZMod p)) := by
    rw [hmkdef, List.map_map, List.map_map]
    rfl
  have hmklen : mkL.length = t := by simp [hmkdef, hlen]
  have hndmk : (mkL.map SecretShare.x).Nodup := by
    rw [hmkx]
    exact cast_ids_nodup ids hnd (fun i hi => lt_of_le_of_lt (hmem i hi).2 hnp)
  have hmkgd : ∀ i ∈ Finset.range t, (mkL.getD i ⟨0, 0⟩).x = ((ids.getD i 0 : ℕ) : ZMod p) := by
    intro i hi
    have hi' : i < ids.length := by
      rw [hlen]
      exact Finset.mem_range.mp hi
    rw [getD_eq_getElem mkL _ (by rw [hmklen]; exact Finset.mem_range.mp hi),
      getD_eq_getElem ids 0 hi']
    simp [hmkdef, hfdef]
  have hsig : ∀ i ∈ Finset.range t, ((ids.map f).getD i ⟨0, 0⟩).signature =
      BLS.multiply (BLS.hash_to_g1 hash_int)
        (evaluate_polynomial coefficients ((ids.getD i 0 : ℕ) : ZMod p)) := by
    intro i hi
    have hi' : i < ids.length := by
      rw [hlen]
      exact Finset.mem_range.mp hi
    rw [getD_eq_getElem _ _ (by rw [hplen]; exact Finset.mem_range.mp hi),
      getD_eq_getElem ids 0 hi']
    simp [hfdef]
  have hterm : ∀ i ∈ Finset.range t,
      BLS.lagrange_coefficient mkL i * ((ids.map f).getD i ⟨0, 0⟩).signature =
      (BLS.lagrange_coefficient mkL i *
        evaluate_polynomial coefficients ((mkL.getD i ⟨0, 0⟩).x)) *
        BLS.hash_to_g1 hash_int := by
    intro i hi
    rw [hsig i hi, hmkgd i hi]
    simp only [BLS.multiply, BLS.hash_to_g1, BLS.G1gen]
    ring
  rw [Finset.sum_congr rfl hterm, ← Finset.sum_mul]
  have hcore := sum_lagrange_eval coefficients mkL hndmk (by rw [hmklen, hc])
    (by
      intro h
      rw [h] at hc
      simp at hc
      omega)
  rw [hmklen] at hcore
  rw [hcore]
  show Except.ok (some (coefficients.getD 0 0 * ((hash_int : ZMod p) * BLS.G1gen p))) = _
  rfl

/-- C9: `combine_signatures` of a list of at least `t` partial signatures
with pairwise-distinct signer ids equals `combine_signatures` of its first
`t` entries — the partials after the first `t` never affect the result —
and the result is unchanged under any permutation of those first `t`
partials: the aggregate is determined by the selected set alone.  Signer
ids are in `{1..n}` with `n < p`, captured by `hlt`. -/
theorem bls_combine_set_determined {p : ℕ} [Fact p.Prime] (t : ℕ)
    (partials partials₂ : List (BLS.BLSPartialSignature p))
    (hlen : t ≤ partials.length)
    (hndid : (partials.map BLS.BLSPartialSignature.signer_id).Nodup)
    (hlt : ∀ sig ∈ partials, sig.signer_id < p)
    (hperm : partials₂.Perm (partials.take t)) :
    BLS.combine_signatures t partials = BLS.combine_signatures t (partials.take t) ∧
    BLS.combine_signatures t partials₂ = BLS.combine_signatures t partials := by
  classical
  haveI : NeZero p := ⟨(Fact.out : p.Prime).ne_zero⟩
  have ha : BLS.combine_signatures t partials = BLS.combine_signatures t (partials.take t) := by
    have h1 : ¬ partials.length < t := not_lt.mpr hlen
    have h2 : ¬ (partials.take t).length < t := by
      rw [List.length_take]
      omega
    simp only [BLS.combine_signatures, if_neg h1, if_neg h2, List.take_take, min_self]
  refine ⟨ha, ?_⟩
  have hnd : (partials.map (fun sig => (sig.signer_id : ZMod p))).Nodup := by
    have : partials.map (fun sig => (sig.signer_id : ZMod p)) =
        (partials.map BLS.BLSPartialSignature.signer_id).map
          (fun i : ℕ => ((i : ℕ) : ZMod p)) := by
      rw [List.map_map]
      rfl
    rw [this]
    refine cast_ids_nodup _ hndid ?_
    intro i hi
    obtain ⟨sig, hsig, rfl⟩ := List.mem_map.mp hi
    exact hlt sig hsig
  by_cases ht0 : t = 0
  · subst ht0
    have h2 : partials₂ = [] := by
      simpa using hperm.length_eq
    rw [h2, ha, List.take_zero]
  · have ht1 : 1 ≤ t := by omega
    have hlen₂ : partials₂.length = t := by
      rw [hperm.length_eq, List.length_take]
      omega
    have hlen₁ : (partials.take t).length = t := by
      rw [List.length_take]
      omega
    have hndtake : ((partials.take t).map (fun sig => (sig.signer_id : ZMod p))).Nodup :=
      ((List.take_sublist t partials).map _).nodup hnd
    have hnd₂ : (partials₂.map (fun sig => (sig.signer_id : ZMod p))).Nodup :=
      ((hperm.map _).nodup_iff).mpr hndtake
    rw [ha, combine_signatures_eq_sum t partials₂ (by omega) ht1,
      combine_signatures_eq_sum t (partials.take t) (by omega) ht1]
    have htk2 : partials₂.take t = partials₂ := by
      rw [← hlen₂, List.take_length]
    have htk1 : (partials.take t).take t = partials.take t := by
      rw [List.take_take, min_self]
    rw [htk2, htk1]
    congr 2
    rw [combine_sum_eq_list_sum t partials₂ hlen₂ hnd₂,
      combine_sum_eq_list_sum t (partials.take t) hlen₁ hndtake]
    have hS : (partials₂.map (fun q => (q.signer_id : ZMod p))).toFinset =
        ((partials.take t).map (fun q => (q.signer_id : ZMod p))).toFinset :=
      List.toFinset_eq_of_perm _ _ (hperm.map _)
    rw [hS]
    exact List.Perm.sum_eq (hperm.map _)

/-- C3 (refuting evidence): `combine_signatures` on a partial-signature list
whose first `t` entries duplicate a signer id does **not** fail.  With
`p = 13`, `t = 2` and two partials both carrying signer id 1, every Lagrange
denominator is `0`; py_ecc's `prime_field_inv` returns `0` on `0`, so both
coefficients are `0` and the function returns the identity point
`.ok (some 0)` instead of raising the spec's `InvalidInput`. -/
theorem bls_combine_duplicate_ids_no_error :
    BLS.combine_signatures (p := 13) 2 [⟨1, 4⟩, ⟨1, 6⟩] = .ok (some 0) ∧
    ∀ e, BLS.combine_signatures (p := 13) 2 [⟨1, 4⟩, ⟨1, 6⟩] ≠ .error e := by
  constructor
  · decide
  · intro e
    cases e <;> decide

/-- C4 (refuting evidence): ECDSA `create_partial_signature` performs no
`r = 0` check.  In a model curve where `(k·G).x` reduces to `0 mod p`
(`pointX` constantly `0`), with `p = 13`, one party holding share `(1, 5)`,
message hash `7` and nonce `k = 3`, it returns the partial signature with
`r = 0` (and `s = 3⁻¹·(7 + 0·5) = 11`) instead of rejecting with
`InvalidNonce`. -/
theorem ecdsa_partial_r_zero_not_rejected :
    ECDSA.create_partial_signature (p := 13) (fun _ => 0) [⟨1, 5⟩] 1 1 7 3 =
      .ok ⟨1, 0, 11⟩ ∧
    ∀ e, ECDSA.create_partial_signature (p := 13) (fun _ => 0) [⟨1, 5⟩] 1 1 7 3 ≠
      .error e := by
  constructor
  · decide
  · intro e
    cases e <;> decide

/-- C5: for every list of fewer than `t` partial signatures, both the BLS
and the ECDSA `combine_signatures` fail with `InsufficientSigners` and
produce no signature. -/
theorem combine_insufficient_signers {p q : ℕ} {M : Type} (t : ℕ)
    (bls_partials : List (BLS.BLSPartialSignature p))
    (ecdsa_partials : List (ECDSA.PartialSignature q)) (message : M)
    (hb : bls_partials.length < t) (he : ecdsa_partials.length < t) :
    BLS.combine_signatures t bls_partials = .error .insufficientSigners ∧
    ECDSA.combine_signatures t ecdsa_partials message = .error .insufficientSigners := by
  constructor
  · unfold BLS.combine_signatures
    rw [if_pos hb]
  · unfold ECDSA.combine_signatures
    rw [if_pos he]

/-- C6: with at least `t` ECDSA partial signatures supplied, if two of them
carry distinct `r`-values then `combine_signatures` fails with
`InconsistentNonce`; and it returns a pair `(r, s)` only when every supplied
partial has the same `r` (namely that of the first partial). -/
theorem ecdsa_inconsistent_nonce {p : ℕ} {M : Type} (t : ℕ)
    (partials : List (ECDSA.PartialSignature p)) (message : M)
    (hlen : t ≤ partials.length) :
    (∀ a b, a ∈ partials → b ∈ partials → a.r ≠ b.r →
      ECDSA.combine_signatures t partials message = .error .inconsistentNonce) ∧
    (∀ r s, ECDSA.combine_signatures t partials message = .ok (r, s) →
      ∀ sig ∈ partials, sig.r = (partials.getD 0 ⟨0, 0, 0⟩).r) := by
  classical
  have h1 : ¬ partials.length < t := not_lt.mpr hlen
  constructor
  · intro a b ha hb hab
    have hd : (partials.map ECDSA.PartialSignature.r).dedup.length ≠ 1 := by
      intro hone
      obtain ⟨x, hx⟩ := List.length_eq_one.mp hone
      have hma : a.r ∈ (partials.map ECDSA.PartialSignature.r).dedup :=
        List.mem_dedup.mpr (List.mem_map_of_mem _ ha)
      have hmb : b.r ∈ (partials.map ECDSA.PartialSignature.r).dedup :=
        List.mem_dedup.mpr (List.mem_map_of_mem _ hb)
      rw [hx] at hma hmb
      simp only [List.mem_singleton] at hma hmb
      exact hab (hma.trans hmb.symm)
    unfold ECDSA.combine_signatures
    rw [if_neg h1, if_pos hd]
  · intro r s hok sig hsig
    unfold ECDSA.combine_signatures at hok
    rw [if_neg h1] at hok
    by_cases hd : (partials.map ECDSA.PartialSignature.r).dedup.length ≠ 1
    · rw [if_pos hd] at hok
      simp at hok
    · rw [if_neg hd] at hok
      push_neg at hd
      obtain ⟨x, hx⟩ := List.length_eq_one.mp hd
      have hne : partials ≠ [] := by
        intro hnil
        rw [hnil] at hx
        simp at hx
      have hs : sig.r ∈ (partials.map ECDSA.PartialSignature.r).dedup :=
        List.mem_dedup.mpr (List.mem_map_of_mem _ hsig)
      have h0 : (partials.getD 0 ⟨0, 0, 0⟩).r ∈
          (partials.map ECDSA.PartialSignature.r).dedup := by
        have hmem0 : partials.getD 0 ⟨0, 0, 0⟩ ∈ partials := by
          rw [getD_eq_getElem partials _ (List.length_pos.mpr hne)]
          exact List.getElem_mem _
        exact List.mem_dedup.mpr (List.mem_map_of_mem _ hmem0)
      rw [hx] at hs h0
      simp only [List.mem_singleton] at hs h0
      rw [hs, h0]

/-- C10: ECDSA `combine_signatures` never reads its message argument: for
any two messages its result — success value or error alike — is
identical. -/
theorem ecdsa_combine_message_independent {p : ℕ} {M : Type} (t : ℕ)
    (partials : List (ECDSA.PartialSignature p)) (m₁ m₂ : M) :
    ECDSA.combine_signatures t partials m₁ = ECDSA.combine_signatures t partials m₂ := rfl

theorem except_ok_bind {E α β : Type} (a : α) (f : α → Except E β) :
    (Except.ok a : Except E α).bind f = f a := rfl

/-- C7: ECDSA `verify_signature` returns `false` whenever `r` or `s` lies
outside `[1, p)`; otherwise, with `e = SHA-256(m) mod p`, `w = s⁻¹ mod p`,
`u₁ = e·w`, `u₂ = r·w` and `P = u₁·G + u₂·Q`, it returns `true` if and only
if `P` is not the point at infinity and `P.x mod p = r`. -/
theorem ecdsa_verify_correct {p : ℕ} [Fact p.Prime] (mulG mulQ : ℕ → ECDSA.ECPoint)
    (padd : ECDSA.ECPoint → ECDSA.ECPoint → ECDSA.ECPoint) (r s : ℤ) (hash_int : ℕ) :
    ((r < 1 ∨ (p : ℤ) ≤ r ∨ s < 1 ∨ (p : ℤ) ≤ s) →
      ECDSA.verify_signature (p := p) mulG mulQ padd r s hash_int = false) ∧
    (1 ≤ r → r < (p : ℤ) → 1 ≤ s → s < (p : ℤ) →
      (ECDSA.verify_signature (p := p) mulG mulQ padd r s hash_int = true ↔
        ∃ x y, padd (mulG (((hash_int : ZMod p) * ((s : ZMod p))⁻¹).val))
            (mulQ ((((r : ZMod p)) * ((s : ZMod p))⁻¹).val)) =
            ECDSA.ECPoint.affine x y ∧
          (((x % p : ℕ) : ℤ) = r))) := by
  constructor
  · intro hout
    have hcond : r ≤ 0 ∨ r ≥ (p : ℤ) ∨ s ≤ 0 ∨ s ≥ (p : ℤ) := by
      rcases hout with h | h | h | h
      · exact Or.inl (by omega)
      · exact Or.inr (Or.inl (by omega))
      · exact Or.inr (Or.inr (Or.inl (by omega)))
      · exact Or.inr (Or.inr (Or.inr (by omega)))
    unfold ECDSA.verify_signature ECDSA.verify_signature_inner
    rw [if_pos hcond]
  · intro h1 h2 h3 h4
    have hcond : ¬ (r ≤ 0 ∨ r ≥ (p : ℤ) ∨ s ≤ 0 ∨ s ≥ (p : ℤ)) := by
      push_neg
      exact ⟨by omega, by omega, by omega, by omega⟩
    have hs0 : ((s : ZMod p)) ≠ 0 := by
      rw [Ne, ZMod.intCast_zmod_eq_zero_iff_dvd]
      intro hdvd
      have := Int.le_of_dvd (by omega) hdvd
      omega
    have hinv : ECDSA.inverse ((s : ZMod p)) = .ok (((s : ZMod p))⁻¹) := by
      unfold ECDSA.inverse
      rw [if_neg hs0, pow_sub_two_eq_inv hs0]
    unfold ECDSA.verify_signature ECDSA.verify_signature_inner
    rw [if_neg hcond, hinv, except_ok_bind]
    simp only []
    cases hP : padd (mulG (((hash_int : ZMod p) * ((s : ZMod p))⁻¹).val))
        (mulQ ((((r : ZMod p)) * ((s : ZMod p))⁻¹).val)) with
    | infinity =>
      simp [ECDSA.ECPoint.xOpt]
    | affine x y =>
      simp [ECDSA.ECPoint.xOpt, decide_eq_true_iff, eq_comm]

/-- C8: the three verification operations — BLS `verify_signature`, BLS
`verify_partial_signature` and ECDSA `verify_signature` — are total boolean
`try/except` wrappers: whatever the (arbitrary, possibly failing)
pairing/curve oracles and inputs, each returns exactly the body's boolean
when the body succeeds, and `false` when the body raises; no exception
propagates. -/
theorem verify_never_raises {p : ℕ} {G2T GT : Type} [DecidableEq GT]
    (pairing : G2T → BLS.G1Point p → Except SigError GT) (public_key g2 : G2T)
    (signature : BLS.G1Point p) (public_key_shares : List G2T) (d : G2T)
    (num_parties : ℕ) (partial_sig : BLS.BLSPartialSignature p)
    (mulG mulQ : ℕ → ECDSA.ECPoint)
    (padd : ECDSA.ECPoint → ECDSA.ECPoint → ECDSA.ECPoint)
    (r s : ℤ) (hash_int : ℕ) :
    ((∀ e, BLS.verify_signature_inner pairing public_key g2 signature hash_int =
        .error e →
      BLS.verify_signature pairing public_key g2 signature hash_int = false) ∧
     (∀ b, BLS.verify_signature_inner pairing public_key g2 signature hash_int =
        .ok b →
      BLS.verify_signature pairing public_key g2 signature hash_int = b)) ∧
    ((∀ e, BLS.verify_partial_signature_inner pairing public_key_shares d num_parties
        g2 partial_sig hash_int = .error e →
      BLS.verify_partial_signature pairing public_key_shares d num_parties g2
        partial_sig hash_int = false) ∧
     (∀ b, BLS.verify_partial_signature_inner pairing public_key_shares d num_parties
        g2 partial_sig hash_int = .ok b →
      BLS.verify_partial_signature pairing public_key_shares d num_parties g2
        partial_sig hash_int = b)) ∧
    ((∀ e, ECDSA.verify_signature_inner (p := p) mulG mulQ padd r s hash_int =
        .error e →
      ECDSA.verify_signature (p := p) mulG mulQ padd r s hash_int = false) ∧
     (∀ b, ECDSA.verify_signature_inner (p := p) mulG mulQ padd r s hash_int =
        .ok b →
      ECDSA.verify_signature (p := p) mulG mulQ padd r s hash_int = b)) := by
  refine ⟨⟨?_, ?_⟩, ⟨?_, ?_⟩, ⟨?_, ?_⟩⟩ <;>
    intro v h <;>
    simp only [BLS.verify_signature, BLS.verify_partial_signature,
      ECDSA.verify_signature, h]

/-- Witness for `bls_uniqueness`: `p = 7`, `t = 2`, `n = 3`, dealer
polynomial `3 + 4x`, committee `{1, 2}`, message-hash scalar `2`. -/
theorem bls_uniqueness_witness :
    BLS.combine_signatures (p := 7) 2 [⟨1, 0⟩, ⟨2, 1⟩] =
      .ok (some (BLS.multiply (BLS.hash_to_g1 2) (([3, 4] : List (ZMod 7)).getD 0 0))) := by
  have h1 : (1 : ℕ) ≤ 2 := by norm_num
  have h2 : ([3, 4] : List (ZMod 7)).length = 2 := by decide
  have h3 : ([1, 2] : List ℕ).length = 2 := by decide
  have h4 : ([1, 2] : List ℕ).Nodup := by decide
  have h5 : ∀ i ∈ ([1, 2] : List ℕ), 1 ≤ i ∧ i ≤ 3 := by decide
  have h6 : (3 : ℕ) < 7 := by norm_num
  have h7 : ([1, 2] : List ℕ).mapM (fun i =>
      BLS.create_partial_signature (p := 7) (create_shares [3, 4] 3) 3 i 2) =
      .ok [⟨1, 0⟩, ⟨2, 1⟩] := by decide
  haveI : Fact (Nat.Prime 7) := ⟨by norm_num⟩
  exact bls_uniqueness (p := 7) 2 3 [3, 4] [1, 2] 2 [⟨1, 0⟩, ⟨2, 1⟩] h1 h2 h3 h4 h5 h6 h7

/-- Witness for `lagrange_round_trip`: `p = 7`, `t = 2`, polynomial
`3 + 4x`, x-values `{1, 2}`. -/
theorem lagrange_round_trip_witness :
    ECDSA.reconstruct_secret (p := 7) 2
      ([1, 2].map (fun x => (⟨x, evaluate_polynomial [3, 4] x⟩ : SecretShare 7))) =
      .ok (([3, 4] : List (ZMod 7)).getD 0 0) := by
  have h1 : (1 : ℕ) ≤ 2 := by norm_num
  have h2 : ([3, 4] : List (ZMod 7)).length = 2 := by decide
  have h3 : ([1, 2] : List (ZMod 7)).length = 2 := by decide
  have h4 : ([1, 2] : List (ZMod 7)).Nodup := by decide
  have h5 : ∀ x ∈ ([1, 2] : List (ZMod 7)), x ≠ 0 := by decide
  haveI : Fact (Nat.Prime 7) := ⟨by norm_num⟩
  exact lagrange_round_trip (p := 7) 2 [3, 4] [1, 2] h1 h2 h3 h4 h5

/-- Witness for `combine_insufficient_signers`: empty partial lists with
`t = 1`. -/
theorem combine_insufficient_signers_witness :
    BLS.combine_signatures (p := 7) 1 ([] : List (BLS.BLSPartialSignature 7)) =
      .error .insufficientSigners ∧
    ECDSA.combine_signatures (p := 7) 1 ([] : List (ECDSA.PartialSignature 7)) () =
      .error .insufficientSigners :=
  combine_insufficient_signers 1 [] [] () (by decide) (by decide)

/-- Witness for `ecdsa_inconsistent_nonce`: three partials where the second
carries a different `r`. -/
theorem ecdsa_inconsistent_nonce_witness :
    ECDSA.combine_signatures (p := 7) 2
      [⟨1, 2, 3⟩, ⟨2, 3, 3⟩, ⟨3, 2, 1⟩] () = .error .inconsistentNonce :=
  (ecdsa_inconsistent_nonce 2 [⟨1, 2, 3⟩, ⟨2, 3, 3⟩, ⟨3, 2, 1⟩] () (by decide)).1
    ⟨1, 2, 3⟩ ⟨2, 3, 3⟩ (by decide) (by decide) (by decide)

/-- Witness for `ecdsa_verify_correct`: `p = 7`; an out-of-range `r = 0`
is rejected, and with the model curve returning the affine point
`(10, 4)` and `r = 3` (`10 mod 7 = 3`) verification succeeds. -/
theorem ecdsa_verify_correct_witness :
    ECDSA.verify_signature (p := 7) (fun _ => .affine 3 1) (fun _ => .affine 2 2)
      (fun _ _ => .affine 10 4) 0 2 5 = false ∧
    ECDSA.verify_signature (p := 7) (fun _ => .affine 3 1) (fun _ => .affine 2 2)
      (fun _ _ => .affine 10 4) 3 2 5 = true := by
  haveI : Fact (Nat.Prime 7) := ⟨by norm_num⟩
  constructor
  · exact (ecdsa_verify_correct (fun _ => .affine 3 1) (fun _ => .affine 2 2)
      (fun _ _ => .affine 10 4) 0 2 5).1 (by norm_num)
  · exact ((ecdsa_verify_correct (fun _ => .affine 3 1) (fun _ => .affine 2 2)
      (fun _ _ => .affine 10 4) 3 2 5).2 (by norm_num) (by norm_num) (by norm_num)
      (by norm_num)).mpr ⟨10, 4, rfl, by decide⟩

/-- Witness for `verify_never_raises`: a failing pairing oracle makes BLS
verification return `false`; a constant successful pairing makes partial
verification return its boolean; a curve model returning the point at
infinity makes ECDSA verification return `false`. -/
theorem verify_never_raises_witness :
    BLS.verify_signature (p := 7)
      (fun (_ : Unit) (_ : BLS.G1Point 7) => (.error .invalidInput : Except SigError ℕ))
      () () 0 5 = false ∧
    BLS.verify_partial_signature (p := 7)
      (fun (_ : Unit) (_ : BLS.G1Point 7) => (.ok 5 : Except SigError ℕ))
      [()] () 1 () ⟨1, 0⟩ 5 = true ∧
    ECDSA.verify_signature (p := 7) (fun _ => .affine 0 0) (fun _ => .affine 0 0)
      (fun _ _ => .infinity) 3 2 5 = false := by
  refine ⟨?_, ?_, ?_⟩
  · exact ((verify_never_raises (p := 7)
      (fun (_ : Unit) (_ : BLS.G1Point 7) => (.error .invalidInput : Except SigError ℕ))
      () () 0 [()] () 1 ⟨1, 0⟩ (fun _ => .affine 0 0) (fun _ => .affine 0 0)
      (fun _ _ => .infinity) 3 2 5).1).1 .invalidInput (by decide)
  · exact ((verify_never_raises (p := 7)
      (fun (_ : Unit) (_ : BLS.G1Point 7) => (.ok 5 : Except SigError ℕ))
      () () 0 [()] () 1 ⟨1, 0⟩ (fun _ => .affine 0 0) (fun _ => .affine 0 0)
      (fun _ _ => .infinity) 3 2 5).2).1.2 true (by decide)
  · exact ((verify_never_raises (p := 7)
      (fun (_ : Unit) (_ : BLS.G1Point 7) => (.ok 5 : Except SigError ℕ))
      () () 0 [()] () 1 ⟨1, 0⟩ (fun _ => .affine 0 0) (fun _ => .affine 0 0)
      (fun _ _ => .infinity) 3 2 5).2).2.1 .invalidInput (by decide)

/-- Witness for `bls_combine_set_determined`: `p = 7`, `t = 2`, three
partials; dropping the third and swapping the first two leaves the
aggregate unchanged. -/
theorem bls_combine_set_determined_witness :
    (BLS.combine_signatures (p := 7) 2 [⟨1, 2⟩, ⟨2, 3⟩, ⟨3, 4⟩] =
      BLS.combine_signatures (p := 7) 2 ([⟨1, 2⟩, ⟨2, 3⟩, ⟨3, 4⟩].take 2)) ∧
    (BLS.combine_signatures (p := 7) 2 [⟨2, 3⟩, ⟨1, 2⟩] =
      BLS.combine_signatures (p := 7) 2 [⟨1, 2⟩, ⟨2, 3⟩, ⟨3, 4⟩]) := by
  haveI : Fact (Nat.Prime 7) := ⟨by norm_num⟩
  exact bls_combine_set_determined 2 [⟨1, 2⟩, ⟨2, 3⟩, ⟨3, 4⟩] [⟨2, 3⟩, ⟨1, 2⟩]
    (by decide) (by decide) (by decide) (by decide)

end ThresholdSig
